import Mathlib

/-!
Verification of the word-local duplicate collapser
`remove_duplicate_letters` from `src/lab1/text_processor/processor.py`.

The function scans its input left to right, keeping a list `result` of
completed fragments (finished words and separator characters) and a buffer
`current_word` for the word being built.  An alphanumeric character equal to
the last character of the non-empty buffer is skipped; any other alphanumeric
character is appended to the buffer; a non-alphanumeric character flushes a
non-empty buffer into `result` and is then appended to `result` itself.  A
trailing non-empty buffer is flushed after the scan and the fragments are
joined.

Python's character classification `str.isalnum()` is a parameter
`alnum : Char → Bool` throughout, so every parametric theorem below holds for
the real Unicode classification, whatever it is; the concrete example strings
of the specification are all ASCII, where that classification coincides with
ASCII letters and digits (`Char.isAlphanum`).
-/

namespace IntegrProg

/-- One iteration of the `for char in text` loop of `remove_duplicate_letters`
(processor.py lines 30-41).  The state is the pair `(result, current_word)`.
Python's `current_word[-1] == char` on a non-empty list is
`current_word.getLast? = some char`. -/
def rdlStep (alnum : Char → Bool) (st : List (List Char) × List Char)
    (char : Char) : List (List Char) × List Char :=
  if alnum char then
    if st.2 ≠ [] ∧ st.2.getLast? = some char then st
    else (st.1, st.2 ++ [char])
  else
    ((if st.2 ≠ [] then st.1 ++ [st.2] else st.1) ++ [[char]], [])

/-- Shallow embedding of `remove_duplicate_letters`
(processor.py lines 4-47) over `List Char`: the `if not text` guard, the scan
loop, the final flush of a non-empty `current_word`, and `"".join(result)`. -/
def remove_duplicate_letters (alnum : Char → Bool) (text : List Char) :
    List Char :=
  if text = [] then []
  else
    let st := text.foldl (rdlStep alnum) ([], [])
    let result := if st.2 ≠ [] then st.1 ++ [st.2] else st.1
    result.flatten

/-- One iteration of the loop with Python's partiality made explicit: the
indexing `current_word[-1]` raises on an empty list, modelled by `none`; the
source guards it behind the short-circuit `current_word and ...`. -/
def rdlStepChecked (alnum : Char → Bool) (st : List (List Char) × List Char)
    (char : Char) : Option (List (List Char) × List Char) :=
  if alnum char then
    if st.2 ≠ [] then
      match st.2.getLast? with
      | none => none
      | some last => if last = char then some st else some (st.1, st.2 ++ [char])
    else some (st.1, st.2 ++ [char])
  else
    some ((if st.2 ≠ [] then st.1 ++ [st.2] else st.1) ++ [[char]], [])

/-- `remove_duplicate_letters` with the possible runtime failure of
`current_word[-1]` propagated: a `none` anywhere in the scan aborts the call. -/
def remove_duplicate_letters_checked (alnum : Char → Bool) (text : List Char) :
    Option (List Char) :=
  if text = [] then some []
  else do
    let st ← text.foldlM (rdlStepChecked alnum) ([], [])
    let result := if st.2 ≠ [] then st.1 ++ [st.2] else st.1
    pure result.flatten

/-- The reference left-to-right scan, written from the specification's words:
an output accumulator `acc` and a word buffer `buf`; an alphanumeric character
equal to the last character of the non-empty buffer is discarded, otherwise
appended to the buffer; a non-alphanumeric character first flushes a non-empty
buffer to the accumulator and is then appended itself; at the end a remaining
non-empty buffer is flushed and the accumulator returned. -/
def refScan (alnum : Char → Bool) (acc buf : List Char) :
    List Char → List Char
  | [] => if buf ≠ [] then acc ++ buf else acc
  | c :: rest =>
    if alnum c then
      if buf ≠ [] ∧ buf.getLast? = some c then refScan alnum acc buf rest
      else refScan alnum acc (buf ++ [c]) rest
    else
      refScan alnum ((if buf ≠ [] then acc ++ buf else acc) ++ [c]) [] rest

/-- Python's `str.isalnum` on the ASCII strings used by the specification's
examples: on ASCII the Unicode alphanumeric classes are exactly the ASCII
letters and digits. -/
def isalnum (c : Char) : Bool := c.isAlphanum

/-- The `process` operation of the specification at the `String` interface,
instantiated with the ASCII classification. -/
def processString (s : String) : String :=
  String.mk (remove_duplicate_letters isalnum s.data)

/-- Collapsing a word into an already deduplicated buffer: the buffer-side
behaviour of the scan on a run of alphanumeric characters. -/
def dedupBuf : List Char → List Char → List Char
  | buf, [] => buf
  | buf, c :: rest =>
    if buf ≠ [] ∧ buf.getLast? = some c then dedupBuf buf rest
    else dedupBuf (buf ++ [c]) rest

/-- Scan collecting the maximal runs of alphanumeric characters, carrying the
run currently being read. -/
def wordsOfAux (alnum : Char → Bool) : List Char → List Char → List (List Char)
  | cur, [] => if cur ≠ [] then [cur] else []
  | cur, c :: t =>
    if alnum c then wordsOfAux alnum (cur ++ [c]) t
    else (if cur ≠ [] then [cur] else []) ++ wordsOfAux alnum [] t

/-- The list of words of a string: the maximal runs of alphanumeric
characters, in order. -/
def wordsOf (alnum : Char → Bool) (s : List Char) : List (List Char) :=
  wordsOfAux alnum [] s

/-- Extracting a ready accumulator out of the reference scan. -/
theorem refScan_acc (alnum : Char → Bool) :
    ∀ (s : List Char) (acc buf : List Char),
      refScan alnum acc buf s = acc ++ refScan alnum [] buf s := by
  intro s
  induction s with
  | nil =>
    intro acc buf
    by_cases h : buf = [] <;> simp [refScan, h]
  | cons c rest ih =>
    intro acc buf
    by_cases hc : alnum c
    · by_cases hskip : buf ≠ [] ∧ buf.getLast? = some c
      · simp only [refScan, hc, if_pos hskip, if_true]
        exact ih acc buf
      · simp only [refScan, hc, if_neg hskip, if_true]
        exact ih acc (buf ++ [c])
    · simp only [refScan, hc, if_false, Bool.false_eq_true]
      rw [ih _ [], ih (((if buf ≠ [] then [] ++ buf else []) ++ [c])) []]
      by_cases h : buf = [] <;> simp [h]

/-- The fold of the source loop simulates the reference scan: the flattened
`result` is the accumulator, `current_word` is the buffer. -/
theorem foldl_rdlStep_eq_refScan (alnum : Char → Bool) :
    ∀ (s : List Char) (result : List (List Char)) (cw : List Char),
      (s.foldl (rdlStep alnum) (result, cw)).1.flatten ++
          (s.foldl (rdlStep alnum) (result, cw)).2 =
        refScan alnum result.flatten cw s := by
  intro s
  induction s with
  | nil =>
    intro result cw
    by_cases h : cw = [] <;> simp [refScan, h]
  | cons c rest ih =>
    intro result cw
    by_cases hc : alnum c
    · by_cases hskip : cw ≠ [] ∧ cw.getLast? = some c
      · simp only [List.foldl_cons, rdlStep, hc, if_true, if_pos hskip]
        simp only [refScan, hc, if_true, if_pos hskip]
        exact ih result cw
      · simp only [List.foldl_cons, rdlStep, hc, if_true, if_neg hskip]
        simp only [refScan, hc, if_true, if_neg hskip]
        exact ih result (cw ++ [c])
    · simp only [List.foldl_cons, rdlStep, hc, if_false, Bool.false_eq_true]
      simp only [refScan, hc, if_false, Bool.false_eq_true]
      rw [ih _ []]
      by_cases h : cw = [] <;> simp [h]

/-- The source function equals the reference scan started on empty
accumulator and buffer. -/
theorem rdl_eq_refScan (alnum : Char → Bool) (text : List Char) :
    remove_duplicate_letters alnum text = refScan alnum [] [] text := by
  by_cases h : text = []
  · subst h; simp [remove_duplicate_letters, refScan]
  · simp only [remove_duplicate_letters, if_neg h]
    have hfold := foldl_rdlStep_eq_refScan alnum text [] []
    simp only [List.flatten_nil] at hfold
    rw [← hfold]
    by_cases h2 : (text.foldl (rdlStep alnum) ([], [])).2 = [] <;> simp [h2]

/-- C1: for every classification and every input, `remove_duplicate_letters`
returns exactly what the specification's reference left-to-right scan
(accumulator plus word buffer, skip on equal last character, flush on
separators and at the end) returns. -/
theorem claim1_process_eq_reference_scan (alnum : Char → Bool)
    (text : List Char) :
    remove_duplicate_letters alnum text = refScan alnum [] [] text := by
  exact rdl_eq_refScan alnum text

theorem rdlStepChecked_eq_some (alnum : Char → Bool)
    (st : List (List Char) × List Char) (char : Char) :
    rdlStepChecked alnum st char = some (rdlStep alnum st char) := by
  by_cases hc : alnum char
  · by_cases h2 : st.2 = []
    · have hcond : ¬(st.2 ≠ [] ∧ st.2.getLast? = some char) := fun h => h.1 h2
      simp [rdlStepChecked, rdlStep, hc, h2, hcond]
    · have hsome : st.2.getLast?.isSome := List.getLast?_isSome.mpr h2
      obtain ⟨l, hl⟩ := Option.isSome_iff_exists.mp hsome
      by_cases hlc : l = char
      · subst hlc
        have hcond : st.2 ≠ [] ∧ st.2.getLast? = some l := ⟨h2, hl⟩
        simp [rdlStepChecked, rdlStep, hc, h2, hl, hcond]
      · have hcond : ¬(st.2 ≠ [] ∧ st.2.getLast? = some char) := by
          intro h
          rw [hl] at h
          exact hlc (Option.some.inj h.2)
        simp [rdlStepChecked, rdlStep, hc, h2, hl, hlc, hcond]
  · simp [rdlStepChecked, rdlStep, hc]

theorem foldlM_rdlStepChecked (alnum : Char → Bool) :
    ∀ (s : List Char) (st : List (List Char) × List Char),
      s.foldlM (rdlStepChecked alnum) st = some (s.foldl (rdlStep alnum) st) := by
  intro s
  induction s with
  | nil => intro st; rfl
  | cons c rest ih =>
    intro st
    rw [List.foldlM_cons, rdlStepChecked_eq_some]
    simpa using ih (rdlStep alnum st c)

/-- C2: the function is total.  With the partiality of `current_word[-1]`
modelled explicitly, the scan never hits the failing case on any input
(the short-circuit guard protects the indexing), and the checked variant
returns exactly the value of the pure function. -/
theorem claim2_process_total (alnum : Char → Bool) (text : List Char) :
    remove_duplicate_letters_checked alnum text =
      some (remove_duplicate_letters alnum text) := by
  by_cases h : text = []
  · subst h; rfl
  · simp only [remove_duplicate_letters_checked, remove_duplicate_letters,
      if_neg h]
    rw [foldlM_rdlStepChecked]
    rfl

theorem refScan_split (alnum : Char → Bool) (c : Char) (hc : alnum c = false)
    (b : List Char) :
    ∀ (a acc buf : List Char),
      refScan alnum acc buf (a ++ c :: b) =
        refScan alnum acc buf a ++ c :: refScan alnum [] [] b := by
  intro a
  induction a with
  | nil =>
    intro acc buf
    rw [List.nil_append]
    have hstep : refScan alnum acc buf (c :: b) =
        refScan alnum ((if buf ≠ [] then acc ++ buf else acc) ++ [c]) [] b := by
      simp [refScan, hc]
    rw [hstep, refScan_acc]
    by_cases h : buf = [] <;> simp [refScan, h]
  | cons x a ih =>
    intro acc buf
    by_cases hx : alnum x
    · by_cases hskip : buf ≠ [] ∧ buf.getLast? = some x
      · simp only [List.cons_append, refScan, hx, if_true, if_pos hskip]
        exact ih acc buf
      · simp only [List.cons_append, refScan, hx, if_true, if_neg hskip]
        exact ih acc (buf ++ [x])
    · simp only [List.cons_append, refScan, hx, Bool.false_eq_true, if_false]
      exact ih _ []

/-- C5 (parametric part as a helper): a non-alphanumeric character splits the
computation into independent halves. -/
theorem rdl_split (alnum : Char → Bool) (c : Char) (a b : List Char)
    (hc : alnum c = false) :
    remove_duplicate_letters alnum (a ++ c :: b) =
      remove_duplicate_letters alnum a ++ c :: remove_duplicate_letters alnum b := by
  rw [rdl_eq_refScan, rdl_eq_refScan, rdl_eq_refScan]
  exact refScan_split alnum c hc b a [] []

/-- C5: words are processed independently.  A non-alphanumeric separator
splits the input into halves processed independently, and in particular the
specification's example sentence is handled as stated. -/
theorem claim5_words_processed_independently (alnum : Char → Bool) (c : Char)
    (a b : List Char) (hc : alnum c = false) :
    remove_duplicate_letters alnum (a ++ c :: b) =
        remove_duplicate_letters alnum a ++ c :: remove_duplicate_letters alnum b ∧
      processString "Hello world. Good morning!" = "Helo world. God morning!" := by
  refine ⟨rdl_split alnum c a b hc, ?_⟩
  decide

/-- Witness for C5 at a concrete separator and concrete halves. -/
theorem claim5_witness :
    isalnum '.' = false ∧
      (remove_duplicate_letters isalnum ("ab".data ++ '.' :: "cc".data) =
          remove_duplicate_letters isalnum "ab".data ++
            '.' :: remove_duplicate_letters isalnum "cc".data ∧
        processString "Hello world. Good morning!" = "Helo world. God morning!") :=
  ⟨by decide,
    claim5_words_processed_independently isalnum '.' "ab".data "cc".data (by decide)⟩

theorem refScan_sublist (alnum : Char → Bool) :
    ∀ (s acc buf : List Char),
      List.Sublist (refScan alnum acc buf s) (acc ++ buf ++ s) := by
  intro s
  induction s with
  | nil =>
    intro acc buf
    by_cases h : buf = [] <;> simp [refScan, h]
  | cons c rest ih =>
    intro acc buf
    by_cases hc : alnum c
    · by_cases hskip : buf ≠ [] ∧ buf.getLast? = some c
      · simp only [refScan, hc, if_true, if_pos hskip]
        exact (ih acc buf).trans
          ((List.sublist_cons_self c rest).append_left (acc ++ buf))
      · simp only [refScan, hc, if_true, if_neg hskip]
        simpa [List.append_assoc] using ih acc (buf ++ [c])
    · simp only [refScan, hc, Bool.false_eq_true, if_false]
      by_cases h : buf = [] <;>
        simpa [h, List.append_assoc] using
          ih ((if buf ≠ [] then acc ++ buf else acc) ++ [c]) []

/-- Helper: the output is a sublist (subsequence) of the input. -/
theorem rdl_sublist (alnum : Char → Bool) (s : List Char) :
    List.Sublist (remove_duplicate_letters alnum s) s := by
  rw [rdl_eq_refScan]
  simpa using refScan_sublist alnum s [] []

/-- C10: the output is a subsequence of the input: it is obtained from the
input only by deleting characters, never inserting, replacing or
reordering them. -/
theorem claim10_output_subsequence (alnum : Char → Bool) (s : List Char) :
    List.Sublist (remove_duplicate_letters alnum s) s :=
  rdl_sublist alnum s

/-- C6: the output is never longer than the input. -/
theorem claim6_output_length_le (alnum : Char → Bool) (s : List Char) :
    (remove_duplicate_letters alnum s).length ≤ s.length :=
  (rdl_sublist alnum s).length_le

theorem refScan_filter (alnum : Char → Bool) :
    ∀ (s acc buf : List Char),
      (refScan alnum acc buf s).filter (fun x => !(alnum x)) =
        acc.filter (fun x => !(alnum x)) ++ buf.filter (fun x => !(alnum x)) ++
          s.filter (fun x => !(alnum x)) := by
  intro s
  induction s with
  | nil =>
    intro acc buf
    by_cases h : buf = [] <;> simp [refScan, h, List.filter_append]
  | cons c rest ih =>
    intro acc buf
    by_cases hc : alnum c
    · by_cases hskip : buf ≠ [] ∧ buf.getLast? = some c
      · simp only [refScan, hc, if_true, if_pos hskip]
        rw [ih acc buf]
        simp [List.filter_cons, hc]
      · simp only [refScan, hc, if_true, if_neg hskip]
        rw [ih acc (buf ++ [c])]
        simp [List.filter_cons, List.filter_append, hc]
    · simp only [refScan, hc, Bool.false_eq_true, if_false]
      rw [ih _ []]
      by_cases h : buf = [] <;>
        simp [h, List.filter_cons, List.filter_append, hc, List.append_assoc]

/-- C4: the non-alphanumeric characters of the input pass through unchanged
and in the same relative order: filtering both sides to the non-alphanumeric
characters yields equal lists. -/
theorem claim4_separators_preserved (alnum : Char → Bool) (s : List Char) :
    (remove_duplicate_letters alnum s).filter (fun x => !(alnum x)) =
      s.filter (fun x => !(alnum x)) := by
  rw [rdl_eq_refScan]
  simpa using refScan_filter alnum s [] []

theorem dedupBuf_cons_skip (buf : List Char) (c : Char) (rest : List Char)
    (h : buf ≠ [] ∧ buf.getLast? = some c) :
    dedupBuf buf (c :: rest) = dedupBuf buf rest := by
  simp only [dedupBuf, if_pos h]

theorem dedupBuf_cons_keep (buf : List Char) (c : Char) (rest : List Char)
    (h : ¬(buf ≠ [] ∧ buf.getLast? = some c)) :
    dedupBuf buf (c :: rest) = dedupBuf (buf ++ [c]) rest := by
  simp only [dedupBuf, if_neg h]

/-- The word collapse only ever appends to the buffer, and everything it
appends comes from the word. -/
theorem dedupBuf_extends :
    ∀ (w buf : List Char), ∃ e, dedupBuf buf w = buf ++ e ∧ ∀ x ∈ e, x ∈ w := by
  intro w
  induction w with
  | nil => intro buf; exact ⟨[], by simp [dedupBuf]⟩
  | cons c rest ih =>
    intro buf
    by_cases hskip : buf ≠ [] ∧ buf.getLast? = some c
    · obtain ⟨e, he, hmem⟩ := ih buf
      refine ⟨e, ?_, ?_⟩
      · rw [dedupBuf_cons_skip buf c rest hskip, he]
      · intro x hx
        exact List.mem_cons_of_mem c (hmem x hx)
    · obtain ⟨e, he, hmem⟩ := ih (buf ++ [c])
      refine ⟨c :: e, ?_, ?_⟩
      · rw [dedupBuf_cons_keep buf c rest hskip, he]
        simp
      · intro x hx
        rcases List.mem_cons.mp hx with h | h
        · simp [h]
        · exact List.mem_cons_of_mem c (hmem x h)

theorem mem_dedupBuf (w buf : List Char) (x : Char)
    (hx : x ∈ dedupBuf buf w) : x ∈ buf ∨ x ∈ w := by
  obtain ⟨e, he, hmem⟩ := dedupBuf_extends w buf
  rw [he] at hx
  rcases List.mem_append.mp hx with h | h
  · exact Or.inl h
  · exact Or.inr (hmem x h)

/-- The word collapse preserves the absence of adjacent duplicates in the
buffer. -/
theorem dedupBuf_chain :
    ∀ (w buf : List Char), List.Chain' (fun a b => a ≠ b) buf →
      List.Chain' (fun a b => a ≠ b) (dedupBuf buf w) := by
  intro w
  induction w with
  | nil => intro buf h; simpa [dedupBuf] using h
  | cons c rest ih =>
    intro buf h
    by_cases hskip : buf ≠ [] ∧ buf.getLast? = some c
    · rw [dedupBuf_cons_skip buf c rest hskip]
      exact ih buf h
    · rw [dedupBuf_cons_keep buf c rest hskip]
      refine ih (buf ++ [c]) ?_
      rw [List.chain'_append]
      refine ⟨h, List.chain'_singleton c, ?_⟩
      intro x hx y hy
      have hy' : c = y := by simpa using hy
      subst hy'
      rcases not_and_or.mp hskip with hbuf | hlast
      · have hnil : buf = [] := not_not.mp hbuf
        simp [hnil] at hx
      · intro hxc
        apply hlast
        rw [← hxc]
        exact Option.mem_def.mp hx

/-- Collapsing a word that already has no adjacent duplicates changes
nothing. -/
theorem dedupBuf_eq_self :
    ∀ (w buf : List Char), List.Chain' (fun a b => a ≠ b) (buf ++ w) →
      dedupBuf buf w = buf ++ w := by
  intro w
  induction w with
  | nil => intro buf h; simp [dedupBuf]
  | cons c rest ih =>
    intro buf h
    have hnotskip : ¬(buf ≠ [] ∧ buf.getLast? = some c) := by
      rintro ⟨hne, hlast⟩
      have h3 := (List.chain'_append.mp h).2.2
      exact h3 c (Option.mem_def.mpr hlast) c (Option.mem_def.mpr rfl) rfl
    rw [dedupBuf_cons_keep buf c rest hnotskip]
    rw [ih (buf ++ [c]) (by rwa [List.append_assoc, List.singleton_append])]
    simp

/-- On a run of alphanumeric characters the scan only updates the buffer,
exactly as `dedupBuf` does. -/
theorem refScan_word (alnum : Char → Bool) :
    ∀ (w : List Char), (∀ x ∈ w, alnum x = true) →
      ∀ (rest acc buf : List Char),
        refScan alnum acc buf (w ++ rest) =
          refScan alnum acc (dedupBuf buf w) rest := by
  intro w
  induction w with
  | nil => intro _ rest acc buf; simp [dedupBuf]
  | cons c wrest ih =>
    intro hw rest acc buf
    have hc : alnum c = true := hw c (List.mem_cons_self c wrest)
    have hw' : ∀ x ∈ wrest, alnum x = true :=
      fun x hx => hw x (List.mem_cons_of_mem c hx)
    by_cases hskip : buf ≠ [] ∧ buf.getLast? = some c
    · rw [List.cons_append]
      rw [show refScan alnum acc buf (c :: (wrest ++ rest)) =
          refScan alnum acc buf (wrest ++ rest) from by
        simp only [refScan, hc, if_true, if_pos hskip]]
      rw [dedupBuf_cons_skip buf c wrest hskip]
      exact ih hw' rest acc buf
    · rw [List.cons_append]
      rw [show refScan alnum acc buf (c :: (wrest ++ rest)) =
          refScan alnum acc (buf ++ [c]) (wrest ++ rest) from by
        simp only [refScan, hc, if_true, if_neg hskip]]
      rw [dedupBuf_cons_keep buf c wrest hskip]
      exact ih hw' rest acc (buf ++ [c])

/-- A leading separator passes straight to the output. -/
theorem rdl_cons_sep (alnum : Char → Bool) (c : Char) (t : List Char)
    (hc : alnum c = false) :
    remove_duplicate_letters alnum (c :: t) =
      c :: remove_duplicate_letters alnum t := by
  rw [rdl_eq_refScan, rdl_eq_refScan]
  have hstep : refScan alnum [] [] (c :: t) = refScan alnum [c] [] t := by
    simp [refScan, hc]
  rw [hstep, refScan_acc]
  simp

/-- A leading word followed by a separator contributes its collapse and the
separator, then processing continues independently. -/
theorem rdl_word_sep (alnum : Char → Bool) (w : List Char)
    (hw : ∀ x ∈ w, alnum x = true) (c : Char) (t : List Char)
    (hc : alnum c = false) :
    remove_duplicate_letters alnum (w ++ c :: t) =
      dedupBuf [] w ++ c :: remove_duplicate_letters alnum t := by
  rw [rdl_eq_refScan, rdl_eq_refScan]
  rw [refScan_word alnum w hw (c :: t) [] []]
  have hstep : refScan alnum [] (dedupBuf [] w) (c :: t) =
      refScan alnum
        ((if dedupBuf [] w ≠ [] then [] ++ dedupBuf [] w else []) ++ [c]) []
        t := by
    simp [refScan, hc]
  rw [hstep, refScan_acc]
  by_cases h : dedupBuf [] w = [] <;> simp [h]

/-- An input that is a single run of alphanumeric characters is collapsed as
one word. -/
theorem rdl_word (alnum : Char → Bool) (w : List Char)
    (hw : ∀ x ∈ w, alnum x = true) :
    remove_duplicate_letters alnum w = dedupBuf [] w := by
  rw [rdl_eq_refScan]
  have hword := refScan_word alnum w hw [] [] []
  rw [List.append_nil] at hword
  rw [hword]
  by_cases h : dedupBuf [] w = [] <;> simp [refScan, h]

theorem dropWhile_head_false (p : Char → Bool) :
    ∀ (l : List Char) (c : Char) (t : List Char),
      l.dropWhile p = c :: t → p c = false := by
  intro l
  induction l with
  | nil => intro c t h; simp [List.dropWhile] at h
  | cons x l ih =>
    intro c t h
    by_cases hx : p x
    · rw [List.dropWhile_cons_of_pos hx] at h
      exact ih c t h
    · rw [List.dropWhile_cons_of_neg hx] at h
      cases h
      exact Bool.eq_false_iff.mpr hx

/-- Collapsing twice is the same as collapsing once. -/
theorem dedupBuf_idem (w : List Char) :
    dedupBuf [] (dedupBuf [] w) = dedupBuf [] w := by
  have hchain : List.Chain' (fun a b : Char => a ≠ b)
      ([] ++ dedupBuf [] w) := by
    simpa using dedupBuf_chain w [] List.chain'_nil
  rw [dedupBuf_eq_self (dedupBuf [] w) [] hchain]
  simp

theorem rdl_idem_aux (alnum : Char → Bool) :
    ∀ (n : ℕ) (s : List Char), s.length ≤ n →
      remove_duplicate_letters alnum (remove_duplicate_letters alnum s) =
        remove_duplicate_letters alnum s := by
  intro n
  induction n with
  | zero =>
    intro s hs
    have hnil : s = [] := List.length_eq_zero.mp (Nat.le_zero.mp hs)
    subst hnil
    rfl
  | succ n ih =>
    intro s hs
    cases s with
    | nil => rfl
    | cons c t =>
      by_cases hc : alnum c
      · set w := c :: t.takeWhile alnum with hw_def
        have hw : ∀ x ∈ w, alnum x = true := by
          intro x hx
          rcases List.mem_cons.mp hx with h | h
          · subst h; exact hc
          · exact List.mem_takeWhile_imp h
        have hDw : ∀ x ∈ dedupBuf [] w, alnum x = true := by
          intro x hx
          rcases mem_dedupBuf w [] x hx with h | h
          · simp at h
          · exact hw x h
        have hsplit : c :: t = w ++ t.dropWhile alnum := by
          rw [hw_def, List.cons_append, List.takeWhile_append_dropWhile]
        cases hr : t.dropWhile alnum with
        | nil =>
          rw [hsplit, hr, List.append_nil]
          rw [rdl_word alnum w hw]
          rw [rdl_word alnum _ hDw]
          exact dedupBuf_idem w
        | cons c2 t2 =>
          have hc2 : alnum c2 = false := dropWhile_head_false alnum t c2 t2 hr
          rw [hsplit, hr]
          rw [rdl_word_sep alnum w hw c2 t2 hc2]
          rw [rdl_word_sep alnum _ hDw c2
            (remove_duplicate_letters alnum t2) hc2]
          rw [dedupBuf_idem w]
          have hlen : t2.length ≤ n := by
            have heq : t.length + 1 = w.length + (t2.length + 1) := by
              have hl := congrArg List.length hsplit
              rw [hr] at hl
              simpa using hl
            have hs' : t.length + 1 ≤ n + 1 := by simpa using hs
            omega
          rw [ih t2 hlen]
      · have hc' : alnum c = false := Bool.eq_false_iff.mpr hc
        rw [rdl_cons_sep alnum c t hc']
        rw [rdl_cons_sep alnum c (remove_duplicate_letters alnum t) hc']
        have hlen : t.length ≤ n := by
          have hs' : t.length + 1 ≤ n + 1 := by simpa using hs
          omega
        rw [ih t hlen]

/-- C3: processing is idempotent: a second pass over the output changes
nothing. -/
theorem claim3_process_idempotent (alnum : Char → Bool) (s : List Char) :
    remove_duplicate_letters alnum (remove_duplicate_letters alnum s) =
      remove_duplicate_letters alnum s :=
  rdl_idem_aux alnum s.length s (Nat.le_refl _)

/-- Acceptable adjacency in the output: not an equal pair of alphanumeric
characters. -/
def okPair (alnum : Char → Bool) (a b : Char) : Prop :=
  ¬(alnum a = true ∧ alnum b = true ∧ a = b)

theorem okPair_of_right_sep (alnum : Char → Bool) (x c : Char)
    (hc : alnum c = false) : okPair alnum x c := by
  intro h
  rw [hc] at h
  exact Bool.false_ne_true h.2.1

theorem okPair_of_left_sep (alnum : Char → Bool) (x c : Char)
    (hx : alnum x = false) : okPair alnum x c := by
  intro h
  rw [hx] at h
  exact Bool.false_ne_true h.1

theorem okPair_of_ne (alnum : Char → Bool) (x c : Char) (h : x ≠ c) :
    okPair alnum x c :=
  fun hcontra => h hcontra.2.2

/-- Invariant of the scan: if the output so far has no equal adjacent
alphanumeric pair and an empty buffer means the accumulator ends in a
separator, the final output has no equal adjacent alphanumeric pair. -/
theorem refScan_chain (alnum : Char → Bool) :
    ∀ (s acc buf : List Char),
      List.Chain' (okPair alnum) (acc ++ buf) →
      (buf = [] → ∀ x, acc.getLast? = some x → alnum x = false) →
      List.Chain' (okPair alnum) (refScan alnum acc buf s) := by
  intro s
  induction s with
  | nil =>
    intro acc buf hch hlast
    by_cases h : buf = []
    · rw [show refScan alnum acc buf [] = acc from by simp [refScan, h]]
      simpa [h] using hch
    · rw [show refScan alnum acc buf [] = acc ++ buf from by simp [refScan, h]]
      exact hch
  | cons c rest ih =>
    intro acc buf hch hlast
    by_cases hc : alnum c
    · by_cases hskip : buf ≠ [] ∧ buf.getLast? = some c
      · rw [show refScan alnum acc buf (c :: rest) = refScan alnum acc buf rest
            from by simp only [refScan, hc, if_true, if_pos hskip]]
        exact ih acc buf hch hlast
      · rw [show refScan alnum acc buf (c :: rest) =
            refScan alnum acc (buf ++ [c]) rest
            from by simp only [refScan, hc, if_true, if_neg hskip]]
        refine ih acc (buf ++ [c]) ?_ ?_
        · rw [← List.append_assoc, List.chain'_append]
          refine ⟨hch, List.chain'_singleton c, ?_⟩
          intro x hx y hy
          have hy' : c = y := by simpa using hy
          subst hy'
          by_cases hbuf : buf = []
          · subst hbuf
            rw [List.append_nil] at hx
            exact okPair_of_left_sep alnum x c
              (hlast rfl x (Option.mem_def.mp hx))
          · have hlastbuf : ¬ buf.getLast? = some c :=
              fun hl => hskip ⟨hbuf, hl⟩
            rw [List.getLast?_append_of_ne_nil acc hbuf] at hx
            refine okPair_of_ne alnum x c ?_
            intro hxc
            apply hlastbuf
            rw [← hxc]
            exact Option.mem_def.mp hx
        · intro habs
          exact absurd habs (by simp)
    · rw [show refScan alnum acc buf (c :: rest) =
          refScan alnum ((if buf ≠ [] then acc ++ buf else acc) ++ [c]) [] rest
          from by simp only [refScan, hc, Bool.false_eq_true, if_false]]
      refine ih _ [] ?_ ?_
      · rw [List.append_nil, List.chain'_append]
        refine ⟨?_, List.chain'_singleton c, ?_⟩
        · by_cases hbuf : buf = []
          · simpa [hbuf] using hch
          · simpa [hbuf] using hch
        · intro x _ y hy
          have hy' : c = y := by simpa using hy
          subst hy'
          exact okPair_of_right_sep alnum x c (Bool.eq_false_iff.mpr hc)
      · intro _ x hx
        rw [List.getLast?_concat] at hx
        have hxc : c = x := by simpa using hx
        rw [← hxc]
        exact Bool.eq_false_iff.mpr hc

/-- Helper: the output never contains two adjacent equal alphanumeric
characters. -/
theorem rdl_chain (alnum : Char → Bool) (s : List Char) :
    List.Chain' (okPair alnum) (remove_duplicate_letters alnum s) := by
  rw [rdl_eq_refScan]
  refine refScan_chain alnum s [] [] List.chain'_nil ?_
  intro _ x hx
  simp at hx

/-- C7: at no position of the output are the characters at `i` and `i + 1`
both alphanumeric and equal — no word of the output has adjacent equal
characters. -/
theorem claim7_no_adjacent_equal_alnum (alnum : Char → Bool) (s : List Char)
    (i : ℕ) (a b : Char)
    (ha : (remove_duplicate_letters alnum s).get? i = some a)
    (hb : (remove_duplicate_letters alnum s).get? (i + 1) = some b) :
    ¬(alnum a = true ∧ alnum b = true ∧ a = b) := by
  have hchain := rdl_chain alnum s
  obtain ⟨h1, hget1⟩ := List.get?_eq_some.mp ha
  obtain ⟨h2, hget2⟩ := List.get?_eq_some.mp hb
  have hok := List.chain'_iff_get.mp hchain i (by omega)
  rw [hget1, hget2] at hok
  exact hok

/-- Witness for C7 at a concrete output and position. -/
theorem claim7_witness :
    (remove_duplicate_letters isalnum "aab".data).get? 0 = some 'a' ∧
      (remove_duplicate_letters isalnum "aab".data).get? 1 = some 'b' ∧
      ¬(isalnum 'a' = true ∧ isalnum 'b' = true ∧ 'a' = 'b') :=
  ⟨by decide, by decide,
    claim7_no_adjacent_equal_alnum isalnum "aab".data 0 'a' 'b'
      (by decide) (by decide)⟩

/-- Reading a run of alphanumeric characters extends the current run. -/
theorem wordsOfAux_word (alnum : Char → Bool) :
    ∀ (w : List Char), (∀ x ∈ w, alnum x = true) →
      ∀ (cur rest : List Char),
        wordsOfAux alnum cur (w ++ rest) = wordsOfAux alnum (cur ++ w) rest := by
  intro w
  induction w with
  | nil => intro _ cur rest; simp
  | cons c u ih =>
    intro hw cur rest
    have hc : alnum c = true := hw c (List.mem_cons_self c u)
    rw [List.cons_append]
    rw [show wordsOfAux alnum cur (c :: (u ++ rest)) =
        wordsOfAux alnum (cur ++ [c]) (u ++ rest) from by
      simp [wordsOfAux, hc]]
    rw [ih (fun x hx => hw x (List.mem_cons_of_mem c hx)) (cur ++ [c]) rest]
    rw [List.append_assoc, List.singleton_append]

theorem wordsOf_nil (alnum : Char → Bool) : wordsOf alnum [] = [] := by
  simp [wordsOf, wordsOfAux]

theorem wordsOf_cons_sep (alnum : Char → Bool) (c : Char) (t : List Char)
    (hc : alnum c = false) : wordsOf alnum (c :: t) = wordsOf alnum t := by
  simp [wordsOf, wordsOfAux, hc]

theorem wordsOf_word (alnum : Char → Bool) (w : List Char)
    (hw : ∀ x ∈ w, alnum x = true) (hne : w ≠ []) :
    wordsOf alnum w = [w] := by
  show wordsOfAux alnum [] w = [w]
  have h2 : wordsOfAux alnum [] w = wordsOfAux alnum w [] := by
    have h := wordsOfAux_word alnum w hw [] []
    rwa [List.append_nil, List.nil_append] at h
  rw [h2]
  simp [wordsOfAux, hne]

theorem wordsOf_word_sep (alnum : Char → Bool) (w : List Char)
    (hw : ∀ x ∈ w, alnum x = true) (hne : w ≠ []) (c : Char) (t : List Char)
    (hc : alnum c = false) :
    wordsOf alnum (w ++ c :: t) = w :: wordsOf alnum t := by
  show wordsOfAux alnum [] (w ++ c :: t) = w :: wordsOfAux alnum [] t
  rw [wordsOfAux_word alnum w hw [] (c :: t), List.nil_append]
  simp [wordsOfAux, hc, hne]

/-- The collapse of a word is made of characters of that word. -/
theorem dedupBuf_all (alnum : Char → Bool) (w : List Char)
    (hw : ∀ x ∈ w, alnum x = true) :
    ∀ x ∈ dedupBuf [] w, alnum x = true := by
  intro x hx
  rcases mem_dedupBuf w [] x hx with h | h
  · simp at h
  · exact hw x h

/-- The collapse of a non-empty word keeps its first character first. -/
theorem dedupBuf_head (a : Char) (u : List Char) :
    (dedupBuf [] (a :: u)).head? = some a := by
  have hcond : ¬(([] : List Char) ≠ [] ∧ ([] : List Char).getLast? = some a) := by
    simp
  rw [dedupBuf_cons_keep [] a u hcond]
  obtain ⟨e, he, _⟩ := dedupBuf_extends u ([] ++ [a])
  rw [he]
  simp

theorem dedupBuf_ne_nil (a : Char) (u : List Char) :
    dedupBuf [] (a :: u) ≠ [] := by
  intro h
  have hh := dedupBuf_head a u
  rw [h] at hh
  simp at hh

/-- Word structure of the output: the words of the output are exactly the
collapses of the words of the input, in order. -/
theorem wordsOf_rdl_aux (alnum : Char → Bool) :
    ∀ (n : ℕ) (s : List Char), s.length ≤ n →
      wordsOf alnum (remove_duplicate_letters alnum s) =
        (wordsOf alnum s).map (dedupBuf []) := by
  intro n
  induction n with
  | zero =>
    intro s hs
    have hnil : s = [] := List.length_eq_zero.mp (Nat.le_zero.mp hs)
    subst hnil
    simp [remove_duplicate_letters, wordsOf_nil]
  | succ n ih =>
    intro s hs
    cases s with
    | nil => simp [remove_duplicate_letters, wordsOf_nil]
    | cons c t =>
      by_cases hc : alnum c
      · set w := c :: t.takeWhile alnum with hw_def
        have hw : ∀ x ∈ w, alnum x = true := by
          intro x hx
          rcases List.mem_cons.mp hx with h | h
          · subst h; exact hc
          · exact List.mem_takeWhile_imp h
        have hwne : w ≠ [] := by simp [hw_def]
        have hDw : ∀ x ∈ dedupBuf [] w, alnum x = true := dedupBuf_all alnum w hw
        have hDwne : dedupBuf [] w ≠ [] := by
          rw [hw_def]
          exact dedupBuf_ne_nil c (t.takeWhile alnum)
        have hsplit : c :: t = w ++ t.dropWhile alnum := by
          rw [hw_def, List.cons_append, List.takeWhile_append_dropWhile]
        cases hr : t.dropWhile alnum with
        | nil =>
          rw [hsplit, hr, List.append_nil]
          rw [rdl_word alnum w hw]
          rw [wordsOf_word alnum _ hDw hDwne]
          rw [wordsOf_word alnum w hw hwne]
          simp
        | cons c2 t2 =>
          have hc2 : alnum c2 = false := dropWhile_head_false alnum t c2 t2 hr
          rw [hsplit, hr]
          rw [rdl_word_sep alnum w hw c2 t2 hc2]
          rw [wordsOf_word_sep alnum _ hDw hDwne c2
            (remove_duplicate_letters alnum t2) hc2]
          rw [wordsOf_word_sep alnum w hw hwne c2 t2 hc2]
          have hlen : t2.length ≤ n := by
            have heq : t.length + 1 = w.length + (t2.length + 1) := by
              have hl := congrArg List.length hsplit
              rw [hr] at hl
              simpa using hl
            have hs' : t.length + 1 ≤ n + 1 := by simpa using hs
            omega
          rw [ih t2 hlen]
          simp
      · have hc' : alnum c = false := Bool.eq_false_iff.mpr hc
        rw [rdl_cons_sep alnum c t hc']
        rw [wordsOf_cons_sep alnum c (remove_duplicate_letters alnum t) hc']
        rw [wordsOf_cons_sep alnum c t hc']
        have hlen : t.length ≤ n := by
          have hs' : t.length + 1 ≤ n + 1 := by simpa using hs
          omega
        exact ih t hlen

/-- C8: the words of the output are the collapses of the words of the input,
in the same order, and the collapse of every word of the input keeps that
word's first character. -/
theorem claim8_first_char_retained (alnum : Char → Bool) (s : List Char)
    (w : List Char) (hw : w ∈ wordsOf alnum s) :
    wordsOf alnum (remove_duplicate_letters alnum s) =
        (wordsOf alnum s).map (dedupBuf []) ∧
      (dedupBuf [] w).head? = w.head? := by
  refine ⟨wordsOf_rdl_aux alnum s.length s (Nat.le_refl _), ?_⟩
  cases w with
  | nil => rfl
  | cons a u => rw [dedupBuf_head a u]; rfl

/-- Witness for C8 at a concrete input and word. -/
theorem claim8_witness :
    "abba".data ∈ wordsOf isalnum "abba cd".data ∧
      (wordsOf isalnum (remove_duplicate_letters isalnum "abba cd".data) =
          (wordsOf isalnum "abba cd".data).map (dedupBuf []) ∧
        (dedupBuf [] "abba".data).head? = "abba".data.head?) :=
  ⟨by decide,
    claim8_first_char_retained isalnum "abba cd".data "abba".data (by decide)⟩

/-- C9: comparison is exact codepoint equality, never case-folded and never
across the letter/digit distinction, as shown by the specification's two
examples. -/
theorem claim9_exact_codepoint_equality :
    processString "HeLLo" = "HeLo" ∧ processString "aa11 bb22" = "a1 b2" := by
  constructor <;> decide

end IntegrProg
